import Mathlib

/-!
Shallow embedding of `src/batchprocessor.py`: the `BatchProcessor` class
(batch segmentation, retrying executor, persistence sink) and the
`batch_process` decorator, together with proofs about the
batch-retry-persist execution loop.

Modelling conventions:
- the input iterable is a finite list;
- Python integers (`batch_size`, `retries`) are `Int`; the float
  `retry_delay` is carried as an inert `Rat` — the code never computes
  with it, it is only handed to `time.sleep`, which is modelled as the
  `sleep` event;
- the processing function is an effectful external collaborator: each
  invocation is identified by the 0-based batch index and 0-based attempt
  number and either returns a result (`some r`) or raises an exception
  (`none`);
- observable side effects (diagnostic prints, sleeps, file writes, the
  completion message) are accumulated in an event trace, in program order;
- `tqdm` progress wrapping changes neither the iteration nor the results
  (it is display-only), so the `progress` flag has no semantic effect;
- file paths are lists of characters; `json.dump(result, f, indent=4)` is
  modelled by the write event carrying the result value being serialized.
-/

set_option linter.unusedVariables false

namespace BatchProc

/-- Runtime error surfaced by the executor: reading the local variable
`result` before any assignment (Python `UnboundLocalError`), which happens
when the save step runs for a batch although no attempt of any batch so far
has produced a result. -/
inductive RunError where
  | unboundLocalResult
  deriving DecidableEq

/-- Observable side effects of one run, in order of occurrence.
`attemptStart i a` covers the per-attempt diagnostic print together with the
invocation of the processing function on batch `i` (0-based) at attempt `a`
(0-based); the source prints them 1-based.  `errorRetry` is the per-failure
diagnostic, `sleep` the fixed retry delay, `batchFailed i r` the
permanent-failure diagnostic (which prints the configured retry count `r`),
`fileWrite name content` an artifact written by the persistence sink, and
`complete` the final completion message. -/
inductive Event (ρ : Type) where
  | attemptStart (batch attempt : Nat)
  | errorRetry (batch attempt : Nat)
  | sleep
  | batchFailed (batch : Nat) (retries : Int)
  | fileWrite (name : List Char) (content : ρ)
  | complete
  deriving DecidableEq

/-- Model of Python `str.rfind`, auxiliary scan: index of the last occurrence
of `c` in the remaining list, where the head of the list sits at index `i`
and `best` is the best index found so far (`-1` when none). -/
def rfindAux (c : Char) : List Char → Nat → Int → Int
  | [], _, best => best
  | x :: xs, i, best => rfindAux c xs (i + 1) (if x = c then (i : Int) else best)

/-- Model of Python `str.rfind`: the index of the last occurrence of `c` in
`s`, or `-1` if `c` does not occur. -/
def rfind (s : List Char) (c : Char) : Int :=
  rfindAux c s 0 (-1)

/-- Model of `os.path.splitext` (posix flavour, as used by
`BatchProcessor._save_to_file`): split `p` into root and extension, where the
extension starts at the last dot, provided that dot lies after the last path
separator and the final path component does not consist solely of leading
dots before it. -/
def splitext (p : List Char) : List Char × List Char :=
  let sepIndex := rfind p '/'
  let dotIndex := rfind p '.'
  if sepIndex < dotIndex then
    if ((p.drop (sepIndex + 1).toNat).take (dotIndex - sepIndex - 1).toNat).any
        (fun ch => ch != '.') then
      (p.take dotIndex.toNat, p.drop dotIndex.toNat)
    else (p, [])
  else (p, [])

/-- File name built by `BatchProcessor._save_to_file` for a (1-based) batch
number: the f-string `f"{file_name}_batch{batch_number}{ext}"` where
`file_name, ext = os.path.splitext(self.save_to_file)`. -/
def batchFileName (base : List Char) (batch_number : Nat) : List Char :=
  let fe := splitext base
  fe.1 ++ "_batch".data ++ (Nat.repr batch_number).data ++ fe.2

/-- Model of `BatchProcessor._save_to_file`: the artifact write performed for
batch number `batch_number` (1-based) — the derived per-batch file name
together with the result value serialized into it (`json.dump(result, f,
indent=4)` is modelled by the event carrying its argument). -/
def save_to_file_event (base : List Char) (batch_number : Nat) (result : ρ) : Event ρ :=
  Event.fileWrite (batchFileName base batch_number) result

/-- The `BatchProcessor` class configuration, as stored by `__init__`. -/
structure BatchProcessor (α ρ : Type) where
  iterable : List α
  batch_size : Int
  progress : Bool
  save_to_file : Option (List Char)
  retries : Int
  retry_delay : Rat

/-- Loop body of `BatchProcessor.get_batches`: walk the input, appending each
item to the current partial batch and yielding the batch whenever its length
reaches `batch_size`; after the loop, yield the non-empty remainder. -/
def get_batchesAux (size : Int) : List α → List α → List (List α)
  | [], batch => if batch.isEmpty then [] else [batch]
  | x :: xs, batch =>
    let b := batch ++ [x]
    if (b.length : Int) = size then b :: get_batchesAux size xs []
    else get_batchesAux size xs b

/-- `BatchProcessor.get_batches`, as a function of the stored iterable and
batch size (the generator is materialized as the list of yielded batches). -/
def get_batches (l : List α) (size : Int) : List (List α) :=
  get_batchesAux size l []

/-- The retry loop `for attempt in range(self.retries + 1)` for one batch
`b` at 0-based index `i`: `a` is the current attempt number and the fuel is
the number of remaining iterations.  Each attempt prints the per-attempt
diagnostic and invokes the processing function (`attemptStart`); a raised
exception is printed (`errorRetry`) followed by `time.sleep(self.retry_delay)`
(`sleep`) — also after the last attempt, since the source sleeps inside the
`except` block unconditionally.  Returns the trace and the result of the
first successful attempt, if any. -/
def attemptLoop (f : Nat → Nat → List α → Option ρ) (i : Nat) (b : List α) :
    Nat → Nat → List (Event ρ) × Option ρ
  | _, 0 => ([], none)
  | a, fuel + 1 =>
    match f i a b with
    | some r => ([Event.attemptStart i a], some r)
    | none =>
      let rest := attemptLoop f i b (a + 1) fuel
      (Event.attemptStart i a :: Event.errorRetry i a :: Event.sleep :: rest.1, rest.2)

/-- The `for i, batch in enumerate(batches)` loop of `BatchProcessor.process`.
State threaded through the loop: `results` (the accumulated list) and
`lastResult` (the Python local variable `result`, which keeps the value of
the most recent successful invocation across iterations and is unbound —
`none` — until a first success).  Per batch: run the retry loop; on failure
of all attempts print the permanent-failure diagnostic; then, when a save
path is configured, unconditionally save the current value of `result`
(the source performs this save for failed batches as well) — if `result`
is still unbound this raises `UnboundLocalError`, aborting the run.
Returns the event trace and either the runtime error or the final
`results` list. -/
def processBatches (f : Nat → Nat → List α → Option ρ) (save : Option (List Char))
    (retries : Int) :
    List (List α) → Nat → List ρ → Option ρ → List (Event ρ) × Except RunError (List ρ)
  | [], _, results, _ => ([Event.complete], Except.ok results)
  | b :: bs, i, results, lastResult =>
    let att := attemptLoop f i b 0 (retries + 1).toNat
    let results2 := match att.2 with
      | some r => results ++ [r]
      | none => results
    let last2 := match att.2 with
      | some r => some r
      | none => lastResult
    let failEv : List (Event ρ) := match att.2 with
      | some _ => []
      | none => [Event.batchFailed i retries]
    match save with
    | none =>
      let rest := processBatches f none retries bs (i + 1) results2 last2
      (att.1 ++ failEv ++ rest.1, rest.2)
    | some base =>
      match last2 with
      | none => (att.1 ++ failEv, Except.error RunError.unboundLocalResult)
      | some r =>
        let rest := processBatches f (some base) retries bs (i + 1) results2 last2
        (att.1 ++ failEv ++ (save_to_file_event base (i + 1) r :: rest.1), rest.2)

/-- `BatchProcessor.process`: segment the stored iterable, then run the
per-batch retry loop over the batches (`tqdm` wrapping when `progress` is
set only displays a progress bar and does not alter iteration or results). -/
def BatchProcessor.process (p : BatchProcessor α ρ) (f : Nat → Nat → List α → Option ρ) :
    List (Event ρ) × Except RunError (List ρ) :=
  processBatches f p.save_to_file p.retries (get_batches p.iterable p.batch_size) 0 [] none

/-- The `batch_process` decorator: the wrapper obtained by decorating `func`
with the given configuration, applied to an iterable — it constructs a
`BatchProcessor` and delegates to its `process` method. -/
def batch_process (batch_size : Int) (progress : Bool) (save : Option (List Char))
    (retries : Int) (retry_delay : Rat) (func : Nat → Nat → List α → Option ρ)
    (iterable : List α) : List (Event ρ) × Except RunError (List ρ) :=
  (BatchProcessor.mk iterable batch_size progress save retries retry_delay).process func

/-- Event classifier: an invocation of the processing function on batch `k`. -/
def isInvoke (k : Nat) : Event ρ → Bool
  | Event.attemptStart i _ => i == k
  | _ => false

/-- Event classifier: any invocation of the processing function. -/
def isInvokeAny : Event ρ → Bool
  | Event.attemptStart _ _ => true
  | _ => false

/-- Event classifier: a retry-delay sleep. -/
def isSleepEv : Event ρ → Bool
  | Event.sleep => true
  | _ => false

/-- Event classifier: the permanent-failure diagnostic for batch `k`. -/
def isFailed (k : Nat) : Event ρ → Bool
  | Event.batchFailed i _ => i == k
  | _ => false

/-- Event classifier: a persistence-sink write. -/
def isWrite : Event ρ → Bool
  | Event.fileWrite _ _ => true
  | _ => false

/-- Trace of a maximal run of failing attempts: starting at attempt `a`,
`n` failed attempts of batch `i`, each contributing the attempt diagnostic,
the error diagnostic and a sleep. -/
def failTrace (i : Nat) : Nat → Nat → List (Event ρ)
  | _, 0 => []
  | a, n + 1 =>
    Event.attemptStart i a :: Event.errorRetry i a :: Event.sleep :: failTrace i (a + 1) n

/-- The persistence-sink events contributed by one batch that ends with the
local `result` variable holding `r`: nothing when no save path is configured,
otherwise the single write of `r` under the per-batch file name. -/
def saveEvs (save : Option (List Char)) (batch_number : Nat) (r : ρ) : List (Event ρ) :=
  match save with
  | none => []
  | some base => [save_to_file_event base batch_number r]

/-- The batcher yields nothing on an empty input. -/
theorem get_batches_nil {α : Type} (size : Int) :
    get_batches ([] : List α) size = [] := rfl

/-- Characterization of the accumulator loop of `get_batches`: with a partial
batch shorter than the (positive) batch size and a nonempty total, it chunks
the concatenation of the partial batch and the remaining input. -/
theorem get_batchesAux_eq {α : Type} (s : Nat) (hs : 0 < s) :
    ∀ (xs acc : List α), acc.length < s → acc ++ xs ≠ [] →
      get_batchesAux (s : Int) xs acc =
        (acc ++ xs).take s :: get_batches ((acc ++ xs).drop s) (s : Int) := by
  intro xs
  induction xs with
  | nil =>
    intro acc hacc hne
    rw [List.append_nil] at hne ⊢
    have hle : acc.length ≤ s := Nat.le_of_lt hacc
    cases acc with
    | nil => exact absurd rfl hne
    | cons a t =>
      simp only [get_batchesAux, List.isEmpty_cons, Bool.false_eq_true, if_false]
      rw [List.take_of_length_le hle, List.drop_eq_nil_of_le hle]
      rfl
  | cons x xs ih =>
    intro acc hacc hne
    simp only [get_batchesAux]
    by_cases hb : (((acc ++ [x]).length : Int) = (s : Int))
    · rw [if_pos hb]
      have hbl : (acc ++ [x]).length = s := by exact_mod_cast hb
      have h1 : acc ++ x :: xs = (acc ++ [x]) ++ xs := by simp
      rw [h1, ← hbl, List.take_left, List.drop_left]
      rfl
    · rw [if_neg hb]
      have hbl : (acc ++ [x]).length < s := by
        have h1 : (acc ++ [x]).length = acc.length + 1 := by simp
        have hneq : (acc ++ [x]).length ≠ s := fun hc => hb (by exact_mod_cast hc)
        omega
      rw [ih (acc ++ [x]) hbl (by simp)]
      have h1 : (acc ++ [x]) ++ xs = acc ++ x :: xs := by simp
      rw [h1]

/-- One-step unfolding of the batcher on a nonempty input, for a positive
batch size. -/
theorem get_batches_eq_cons {α : Type} (s : Nat) (hs : 0 < s) (l : List α)
    (hl : l ≠ []) :
    get_batches l (s : Int) = l.take s :: get_batches (l.drop s) (s : Int) := by
  have h := get_batchesAux_eq s hs l [] (by simpa using hs) (by simpa using hl)
  simpa [get_batches] using h

/-- Concatenating the produced batches reproduces the input (bounded-length
version, for induction on the length bound). -/
theorem get_batches_flatten_aux {α : Type} (s : Nat) (hs : 0 < s) :
    ∀ (n : Nat) (l : List α), l.length ≤ n → (get_batches l (s : Int)).flatten = l := by
  intro n
  induction n with
  | zero =>
    intro l hl
    have : l = [] := List.eq_nil_of_length_eq_zero (Nat.le_zero.mp hl)
    subst this
    rfl
  | succ n ih =>
    intro l hl
    by_cases h : l = []
    · subst h; rfl
    · rw [get_batches_eq_cons s hs l h, List.flatten_cons]
      have hlen : 1 ≤ l.length := List.length_pos.mpr h
      have hdrop : (l.drop s).length ≤ n := by
        rw [List.length_drop]; omega
      rw [ih (l.drop s) hdrop, List.take_append_drop]

/-- Concatenating the produced batches reproduces the input. -/
theorem get_batches_flatten {α : Type} (s : Nat) (hs : 0 < s) (l : List α) :
    (get_batches l (s : Int)).flatten = l :=
  get_batches_flatten_aux s hs l.length l (Nat.le_refl _)

/-- The number of produced batches is the ceiling of `length / size`
(bounded-length version). -/
theorem get_batches_length_aux {α : Type} (s : Nat) (hs : 0 < s) :
    ∀ (n : Nat) (l : List α), l.length ≤ n →
      (get_batches l (s : Int)).length = (l.length + s - 1) / s := by
  intro n
  induction n with
  | zero =>
    intro l hl
    have : l = [] := List.eq_nil_of_length_eq_zero (Nat.le_zero.mp hl)
    subst this
    rw [get_batches_nil]
    simp only [List.length_nil, Nat.zero_add]
    exact (Nat.div_eq_of_lt (by omega)).symm
  | succ n ih =>
    intro l hl
    by_cases h : l = []
    · subst h
      rw [get_batches_nil]
      simp only [List.length_nil, Nat.zero_add]
      exact (Nat.div_eq_of_lt (by omega)).symm
    · rw [get_batches_eq_cons s hs l h]
      have hlen : 1 ≤ l.length := List.length_pos.mpr h
      have hdrop : (l.drop s).length ≤ n := by
        rw [List.length_drop]; omega
      rw [List.length_cons, ih (l.drop s) hdrop, List.length_drop]
      rcases Nat.lt_or_ge l.length s with hc | hc
      · have h1 : l.length - s = 0 := by omega
        rw [h1]
        have h2 : (0 + s - 1) / s = 0 := Nat.div_eq_of_lt (by omega)
        have h3 : (l.length + s - 1) / s = 1 :=
          Nat.div_eq_of_lt_le (by omega) (by omega)
        omega
      · have h1 : l.length - s + s - 1 = l.length - 1 := by omega
        have h2 : l.length + s - 1 = (l.length - 1) + s := by omega
        rw [h1, h2, Nat.add_div_right _ hs]

/-- Every produced batch except the last has exactly the configured length
(bounded-length version). -/
theorem get_batches_dropLast_aux {α : Type} (s : Nat) (hs : 0 < s) :
    ∀ (n : Nat) (l : List α), l.length ≤ n →
      ∀ b ∈ (get_batches l (s : Int)).dropLast, b.length = s := by
  intro n
  induction n with
  | zero =>
    intro l hl
    have : l = [] := List.eq_nil_of_length_eq_zero (Nat.le_zero.mp hl)
    subst this
    intro b hb
    simp [get_batches, get_batchesAux] at hb
  | succ n ih =>
    intro l hl
    by_cases h : l = []
    · subst h
      intro b hb
      rw [get_batches_nil] at hb
      simp at hb
    · rw [get_batches_eq_cons s hs l h]
      intro b hb
      cases hrest : get_batches (l.drop s) (s : Int) with
      | nil => rw [hrest] at hb; simp at hb
      | cons c cs =>
        rw [hrest, List.dropLast_cons_of_ne_nil (by simp)] at hb
        have hlen : 1 ≤ l.length := List.length_pos.mpr h
        have hne : l.drop s ≠ [] := by
          intro hc
          rw [hc, get_batches_nil] at hrest
          exact List.noConfusion hrest
        have hsl : s < l.length := by
          by_contra hc
          exact hne (List.drop_eq_nil_of_le (by omega))
        rcases List.mem_cons.mp hb with hb1 | hb2
        · subst hb1
          rw [List.length_take]
          omega
        · have hdrop : (l.drop s).length ≤ n := by
            rw [List.length_drop]; omega
          have := ih (l.drop s) hdrop b
          rw [hrest] at this
          exact this hb2

/-- The last produced batch has length `L % s` when that is nonzero and `s`
otherwise (bounded-length version). -/
theorem get_batches_getLast_aux {α : Type} (s : Nat) (hs : 0 < s) :
    ∀ (n : Nat) (l : List α), l.length ≤ n → l ≠ [] →
      ∃ lastB, (get_batches l (s : Int)).getLast? = some lastB ∧
        lastB.length = if l.length % s ≠ 0 then l.length % s else s := by
  intro n
  induction n with
  | zero =>
    intro l hl hne
    exact absurd (List.eq_nil_of_length_eq_zero (Nat.le_zero.mp hl)) hne
  | succ n ih =>
    intro l hl hne
    rw [get_batches_eq_cons s hs l hne]
    have hlen : 1 ≤ l.length := List.length_pos.mpr hne
    cases hrest : get_batches (l.drop s) (s : Int) with
    | nil =>
      have hd : l.drop s = [] := by
        by_contra hc
        rw [get_batches_eq_cons s hs _ hc] at hrest
        exact List.noConfusion hrest
      have hle : l.length ≤ s := by
        have := List.drop_eq_nil_iff.mp hd
        omega
      refine ⟨l.take s, by simp, ?_⟩
      rw [List.take_of_length_le hle]
      rcases Nat.lt_or_ge l.length s with hc | hc
      · have : l.length % s = l.length := Nat.mod_eq_of_lt hc
        rw [if_pos (by omega)]
        omega
      · have heq : l.length = s := by omega
        rw [heq]
        simp [Nat.mod_self]
    | cons c cs =>
      have hd : l.drop s ≠ [] := by
        intro hc
        rw [hc, get_batches_nil] at hrest
        exact List.noConfusion hrest
      have hsl : s < l.length := by
        by_contra hc
        exact hd (List.drop_eq_nil_of_le (by omega))
      have hdrop : (l.drop s).length ≤ n := by
        rw [List.length_drop]; omega
      obtain ⟨lastB, hlast, hlen2⟩ := ih (l.drop s) hdrop hd
      rw [hrest] at hlast
      refine ⟨lastB, ?_, ?_⟩
      · rw [List.getLast?_cons_cons]
        exact hlast
      · have hm : (l.drop s).length % s = l.length % s := by
          rw [List.length_drop]
          have : l.length = (l.length - s) + s := by omega
          conv_rhs => rw [this]
          rw [Nat.add_mod_right]
        rw [hm] at hlen2
        exact hlen2

/-- `mapIdx` only depends on the function's values. -/
theorem mapIdx_congr_fn {α β : Type} (f g : Nat → α → β) (l : List α)
    (h : ∀ i x, f i x = g i x) : l.mapIdx f = l.mapIdx g := by
  induction l generalizing f g with
  | nil => rfl
  | cons x t ih =>
    rw [List.mapIdx_cons, List.mapIdx_cons, h 0 x]
    exact congrArg _ (ih _ _ fun i y => h (i + 1) y)

/-- `mapIdx` with an index-independent function is `map`. -/
theorem mapIdx_const_fn {α β : Type} (g : α → β) (l : List α) :
    l.mapIdx (fun _ x => g x) = l.map g := by
  induction l with
  | nil => rfl
  | cons x t ih =>
    rw [List.mapIdx_cons, List.map_cons]
    exact congrArg _ ih

/-- Invocation count of batch `k` in a failing-attempts trace of batch `i`. -/
theorem failTrace_countP_invoke {ρ : Type} (i k : Nat) :
    ∀ (n a : Nat), (failTrace i a n : List (Event ρ)).countP (isInvoke k) =
      if i = k then n else 0 := by
  intro n
  induction n with
  | zero => intro a; simp [failTrace]
  | succ n ih =>
    intro a
    rw [show (failTrace i a (n + 1) : List (Event ρ)) =
        Event.attemptStart i a :: Event.errorRetry i a :: Event.sleep ::
          failTrace i (a + 1) n from rfl]
    rw [List.countP_cons, List.countP_cons, List.countP_cons, ih (a + 1)]
    by_cases h : i = k
    · subst h; simp [isInvoke]
    · simp [isInvoke, h]

/-- Sleep count of a failing-attempts trace: one sleep per failed attempt. -/
theorem failTrace_countP_sleep {ρ : Type} (i : Nat) :
    ∀ (n a : Nat), (failTrace i a n : List (Event ρ)).countP isSleepEv = n := by
  intro n
  induction n with
  | zero => intro a; simp [failTrace]
  | succ n ih =>
    intro a
    rw [show (failTrace i a (n + 1) : List (Event ρ)) =
        Event.attemptStart i a :: Event.errorRetry i a :: Event.sleep ::
          failTrace i (a + 1) n from rfl]
    rw [List.countP_cons, List.countP_cons, List.countP_cons, ih (a + 1)]
    simp [isSleepEv]

/-- A failing-attempts trace contains no permanent-failure diagnostic. -/
theorem failTrace_countP_failed {ρ : Type} (i k : Nat) :
    ∀ (n a : Nat), (failTrace i a n : List (Event ρ)).countP (isFailed k) = 0 := by
  intro n
  induction n with
  | zero => intro a; simp [failTrace]
  | succ n ih =>
    intro a
    rw [show (failTrace i a (n + 1) : List (Event ρ)) =
        Event.attemptStart i a :: Event.errorRetry i a :: Event.sleep ::
          failTrace i (a + 1) n from rfl]
    rw [List.countP_cons, List.countP_cons, List.countP_cons, ih (a + 1)]
    simp [isFailed]

/-- Persistence-sink events are invisible to classifiers that ignore writes. -/
theorem saveEvs_countP_zero {ρ : Type} (p : Event ρ → Bool)
    (save : Option (List Char)) (n : Nat) (r : ρ)
    (hp : ∀ nm c, p (Event.fileWrite nm c) = false) :
    (saveEvs save n r).countP p = 0 := by
  cases save with
  | none => rfl
  | some base => simp [saveEvs, save_to_file_event, List.countP_cons, hp]

/-- If the processing function fails on every attempt of batch `i`, the retry
loop exhausts its fuel, producing the full failing trace and no result. -/
theorem attemptLoop_allFail {α ρ : Type} (f : Nat → Nat → List α → Option ρ)
    (i : Nat) (b : List α) (hf : ∀ a, f i a b = none) :
    ∀ (fuel a : Nat), attemptLoop f i b a fuel = (failTrace i a fuel, none) := by
  intro fuel
  induction fuel with
  | zero => intro a; rfl
  | succ n ih =>
    intro a
    simp only [attemptLoop, hf a]
    rw [ih (a + 1)]
    rfl

/-- If the processing function fails on attempts `a..a+n-1` of batch `i` and
succeeds on attempt `a+n`, within the fuel, the retry loop produces the
failing trace followed by the successful attempt, and that attempt's result. -/
theorem attemptLoop_succeedsAt {α ρ : Type} (f : Nat → Nat → List α → Option ρ)
    (i : Nat) (b : List α) (r : ρ) :
    ∀ (n fuel a : Nat), n < fuel →
      (∀ d, d < n → f i (a + d) b = none) →
      f i (a + n) b = some r →
      attemptLoop f i b a fuel =
        (failTrace i a n ++ [Event.attemptStart i (a + n)], some r) := by
  intro n
  induction n with
  | zero =>
    intro fuel a hfuel hfail hsucc
    cases fuel with
    | zero => omega
    | succ m =>
      rw [Nat.add_zero] at hsucc
      simp only [attemptLoop, hsucc]
      rfl
  | succ d ih =>
    intro fuel a hfuel hfail hsucc
    cases fuel with
    | zero => omega
    | succ m =>
      have h0 : f i a b = none := by
        have h := hfail 0 (by omega)
        simpa using h
      simp only [attemptLoop, h0]
      have harg : a + 1 + d = a + (d + 1) := by omega
      rw [ih m (a + 1) (by omega)
          (fun e he => by
            have h := hfail (e + 1) (by omega)
            rw [show a + 1 + e = a + (e + 1) from by omega]
            exact h)
          (by rw [harg]; exact hsucc)]
      simp [failTrace, harg]

/-- Unfolding of the batch loop on a batch whose retry loop succeeds: the
attempt trace, then the save event (if configured, writing the fresh result),
then the rest of the run with the result appended and `result` rebound. -/
theorem processBatches_cons_success {α ρ : Type} (f : Nat → Nat → List α → Option ρ)
    (save : Option (List Char)) (retries : Int) (b : List α) (bs : List (List α))
    (i0 : Nat) (results : List ρ) (lastR : Option ρ) (tr : List (Event ρ)) (r : ρ)
    (hatt : attemptLoop f i0 b 0 (retries + 1).toNat = (tr, some r)) :
    processBatches f save retries (b :: bs) i0 results lastR =
      (tr ++ saveEvs save (i0 + 1) r ++
        (processBatches f save retries bs (i0 + 1) (results ++ [r]) (some r)).1,
       (processBatches f save retries bs (i0 + 1) (results ++ [r]) (some r)).2) := by
  cases save with
  | none => simp [processBatches, hatt, saveEvs]
  | some base => simp [processBatches, hatt, saveEvs]

/-- Unfolding of the batch loop (without a save path) on a batch whose retry
loop exhausts all attempts: the full failing trace, the permanent-failure
diagnostic, then the rest of the run with state unchanged. -/
theorem processBatches_cons_failure_nosave {α ρ : Type}
    (f : Nat → Nat → List α → Option ρ) (retries : Int) (b : List α)
    (bs : List (List α)) (i0 : Nat) (results : List ρ) (lastR : Option ρ)
    (tr : List (Event ρ))
    (hatt : attemptLoop f i0 b 0 (retries + 1).toNat = (tr, none)) :
    processBatches f none retries (b :: bs) i0 results lastR =
      (tr ++ [Event.batchFailed i0 retries] ++
        (processBatches f none retries bs (i0 + 1) results lastR).1,
       (processBatches f none retries bs (i0 + 1) results lastR).2) := by
  simp [processBatches, hatt]

/-- Splitting off the first summand of an index-shifted range sum. -/
theorem sum_range_shift (a : Nat → Nat) (i0 n : Nat) :
    ((List.range (n + 1)).map (fun j => a (i0 + j))).sum =
      a i0 + ((List.range n).map (fun j => a (i0 + 1 + j))).sum := by
  rw [List.range_succ_eq_map, List.map_cons, List.sum_cons, List.map_map]
  congr 1
  apply congrArg
  apply List.map_congr_left
  intro x hx
  show a (i0 + Nat.succ x) = a (i0 + 1 + x)
  rw [show i0 + Nat.succ x = i0 + 1 + x from by omega]

/-- A range sum of the indicator of `k` is `1` when `k` is in range. -/
theorem sum_range_indicator (k n : Nat) (hk : k < n) :
    ((List.range n).map (fun j => if j = k then 1 else 0)).sum = 1 := by
  induction n with
  | zero => omega
  | succ n ih =>
    rw [List.range_succ, List.map_append, List.sum_append]
    simp only [List.map_cons, List.map_nil, List.sum_cons, List.sum_nil]
    by_cases h : n = k
    · subst h
      have hz : ((List.range n).map (fun j => if j = n then (1 : Nat) else 0)).sum = 0 := by
        apply List.sum_eq_zero
        intro x hx
        obtain ⟨j, hj, rfl⟩ := List.mem_map.mp hx
        exact if_neg (by have := List.mem_range.mp hj; omega)
      rw [hz]
      simp
    · rw [ih (by omega)]
      simp [h]

/-- Run of the batch loop in which every remaining batch eventually succeeds:
batch `K` fails on attempts `0..a K - 1` and succeeds on attempt `a K`
(within the attempt budget) with result `g K`.  The run returns the results
of all batches appended in order; each in-range batch is invoked `a K + 1`
times, the total number of retry sleeps is the sum of the `a K`, and no
permanent-failure diagnostic is emitted. -/
theorem processBatches_eventual {α ρ : Type} (f : Nat → Nat → List α → Option ρ)
    (save : Option (List Char)) (retries : Int) (a : Nat → Nat)
    (g : Nat → List α → ρ) :
    ∀ (bs : List (List α)) (i0 : Nat) (results : List ρ) (lastR : Option ρ),
      (∀ K, i0 ≤ K → K < i0 + bs.length → a K < (retries + 1).toNat) →
      (∀ K bb, i0 ≤ K → K < i0 + bs.length → ∀ d, d < a K → f K d bb = none) →
      (∀ K bb, i0 ≤ K → K < i0 + bs.length → f K (a K) bb = some (g K bb)) →
      (processBatches f save retries bs i0 results lastR).2 =
          Except.ok (results ++ bs.mapIdx (fun j bb => g (i0 + j) bb)) ∧
      (∀ K, (processBatches f save retries bs i0 results lastR).1.countP (isInvoke K) =
          if i0 ≤ K ∧ K < i0 + bs.length then a K + 1 else 0) ∧
      (processBatches f save retries bs i0 results lastR).1.countP isSleepEv =
          ((List.range bs.length).map (fun j => a (i0 + j))).sum ∧
      (∀ K, (processBatches f save retries bs i0 results lastR).1.countP (isFailed K) = 0) := by
  intro bs
  induction bs with
  | nil =>
    intro i0 results lastR Hb Hf Hs
    refine ⟨by simp [processBatches], ?_, ?_, ?_⟩
    · intro K
      have hcond : ¬(i0 ≤ K ∧ K < i0 + ([] : List (List α)).length) := by
        simp only [List.length_nil]
        omega
      rw [if_neg hcond]
      simp [processBatches, List.countP_cons, isInvoke]
    · simp [processBatches, List.countP_cons, isSleepEv]
    · intro K
      simp [processBatches, List.countP_cons, isFailed]
  | cons b bs ih =>
    intro i0 results lastR Hb Hf Hs
    have hbud : a i0 < (retries + 1).toNat :=
      Hb i0 (Nat.le_refl _) (by simp only [List.length_cons]; omega)
    have hatt : attemptLoop f i0 b 0 (retries + 1).toNat =
        (failTrace i0 0 (a i0) ++ [Event.attemptStart i0 (a i0)], some (g i0 b)) := by
      have h := attemptLoop_succeedsAt f i0 b (g i0 b) (a i0) ((retries + 1).toNat) 0 hbud
        (fun d hd => by
          rw [Nat.zero_add]
          exact Hf i0 b (Nat.le_refl _) (by simp only [List.length_cons]; omega) d hd)
        (by
          rw [Nat.zero_add]
          exact Hs i0 b (Nat.le_refl _) (by simp only [List.length_cons]; omega))
      rw [Nat.zero_add] at h
      exact h
    have hstep := processBatches_cons_success f save retries b bs i0 results lastR _ _ hatt
    have h1 : (processBatches f save retries (b :: bs) i0 results lastR).1 =
        (failTrace i0 0 (a i0) ++ [Event.attemptStart i0 (a i0)]) ++
          saveEvs save (i0 + 1) (g i0 b) ++
          (processBatches f save retries bs (i0 + 1) (results ++ [g i0 b])
            (some (g i0 b))).1 := by
      rw [hstep]
    have h2 : (processBatches f save retries (b :: bs) i0 results lastR).2 =
        (processBatches f save retries bs (i0 + 1) (results ++ [g i0 b])
          (some (g i0 b))).2 := by
      rw [hstep]
    obtain ⟨k1, k2, k3, k4⟩ := ih (i0 + 1) (results ++ [g i0 b]) (some (g i0 b))
      (fun K hk1 hk2 => Hb K (by omega) (by simp only [List.length_cons]; omega))
      (fun K bb hk1 hk2 => Hf K bb (by omega) (by simp only [List.length_cons]; omega))
      (fun K bb hk1 hk2 => Hs K bb (by omega) (by simp only [List.length_cons]; omega))
    refine ⟨?_, ?_, ?_, ?_⟩
    · rw [h2, k1]
      apply congrArg
      simp only [List.mapIdx_cons, Nat.add_zero]
      rw [mapIdx_congr_fn (fun i bb => g (i0 + (i + 1)) bb)
          (fun j bb => g (i0 + 1 + j) bb) bs
          (fun i x => by
            show g (i0 + (i + 1)) x = g (i0 + 1 + i) x
            rw [show i0 + (i + 1) = i0 + 1 + i from by omega])]
      simp
    · intro K
      by_cases h : i0 = K
      · subst h
        rw [h1, List.countP_append, List.countP_append, List.countP_append,
          failTrace_countP_invoke, k2 i0,
          saveEvs_countP_zero _ save _ _ (fun nm c => rfl)]
        have hone : List.countP (isInvoke i0)
            [(Event.attemptStart i0 (a i0) : Event ρ)] = 1 := by
          simp [List.countP_cons, isInvoke]
        rw [hone]
        simp only [List.length_cons]
        split_ifs <;> omega
      · rw [h1, List.countP_append, List.countP_append, List.countP_append,
          failTrace_countP_invoke, k2 K,
          saveEvs_countP_zero _ save _ _ (fun nm c => rfl)]
        have hone : List.countP (isInvoke K)
            [(Event.attemptStart i0 (a i0) : Event ρ)] = 0 := by
          simp [List.countP_cons, isInvoke, h]
        rw [hone]
        simp only [List.length_cons]
        split_ifs <;> omega
    · rw [h1, List.countP_append, List.countP_append, List.countP_append,
        failTrace_countP_sleep, k3,
        saveEvs_countP_zero _ save _ _ (fun nm c => rfl)]
      have hone : List.countP isSleepEv
          [(Event.attemptStart i0 (a i0) : Event ρ)] = 0 := by
        simp [List.countP_cons, isSleepEv]
      rw [hone]
      simp only [List.length_cons]
      rw [sum_range_shift a i0 bs.length]
      omega
    · intro K
      rw [h1, List.countP_append, List.countP_append, List.countP_append,
        failTrace_countP_failed, k4 K,
        saveEvs_countP_zero _ save _ _ (fun nm c => rfl)]
      have hone : List.countP (isFailed K)
          [(Event.attemptStart i0 (a i0) : Event ρ)] = 0 := by
        simp [List.countP_cons, isFailed]
      rw [hone]

/-- Run of the batch loop (no save path) in which the batch at offset `k`
fails on every attempt while every other batch succeeds on its first
attempt: the failing batch is invoked once per unit of attempt budget,
its permanent-failure diagnostic is emitted exactly once, and the results
of all other batches are appended in their original order. -/
theorem processBatches_oneFailing {α ρ : Type} (f : Nat → Nat → List α → Option ρ)
    (retries : Int) (g : List α → ρ) (hR : 0 ≤ retries) :
    ∀ (bs : List (List α)) (k i0 : Nat) (results : List ρ) (lastR : Option ρ),
      k < bs.length →
      (∀ a bb, f (i0 + k) a bb = none) →
      (∀ i bb, i ≠ i0 + k → f i 0 bb = some (g bb)) →
      (processBatches f none retries bs i0 results lastR).2 =
          Except.ok (results ++ (bs.eraseIdx k).map g) ∧
      (processBatches f none retries bs i0 results lastR).1.countP
          (isInvoke (i0 + k)) = (retries + 1).toNat ∧
      (processBatches f none retries bs i0 results lastR).1.countP
          (isFailed (i0 + k)) = 1 := by
  intro bs
  induction bs with
  | nil =>
    intro k i0 results lastR hk _ _
    simp at hk
  | cons b bs ih =>
    intro k i0 results lastR hk Hfail Hs
    cases k with
    | zero =>
      simp only [Nat.add_zero] at Hfail Hs ⊢
      have hatt : attemptLoop f i0 b 0 (retries + 1).toNat =
          (failTrace i0 0 (retries + 1).toNat, none) :=
        attemptLoop_allFail f i0 b (fun a => Hfail a b) _ 0
      have hstep := processBatches_cons_failure_nosave f retries b bs i0 results lastR _ hatt
      have h1 : (processBatches f none retries (b :: bs) i0 results lastR).1 =
          failTrace i0 0 (retries + 1).toNat ++ [Event.batchFailed i0 retries] ++
            (processBatches f none retries bs (i0 + 1) results lastR).1 := by
        rw [hstep]
      have h2 : (processBatches f none retries (b :: bs) i0 results lastR).2 =
          (processBatches f none retries bs (i0 + 1) results lastR).2 := by
        rw [hstep]
      obtain ⟨k1, k2, k3, k4⟩ := processBatches_eventual f none retries (fun _ => 0)
        (fun _ bb => g bb) bs (i0 + 1) results lastR
        (fun K hk1 hk2 => by show (0 : Nat) < (retries + 1).toNat; omega)
        (fun K bb hk1 hk2 d hd => absurd (hd : d < 0) (Nat.not_lt_zero d))
        (fun K bb hk1 hk2 => Hs K bb (by omega))
      refine ⟨?_, ?_, ?_⟩
      · rw [h2, k1, List.eraseIdx_cons_zero]
        apply congrArg
        apply congrArg
        rw [mapIdx_congr_fn (fun j bb => g bb) (fun _ bb => g bb) bs (fun i x => rfl)]
        exact mapIdx_const_fn g bs
      · rw [h1, List.countP_append, List.countP_append,
          failTrace_countP_invoke, k2 i0]
        have hone : List.countP (isInvoke i0)
            [(Event.batchFailed i0 retries : Event ρ)] = 0 := by
          simp [List.countP_cons, isInvoke]
        rw [hone]
        split_ifs <;> omega
      · rw [h1, List.countP_append, List.countP_append,
          failTrace_countP_failed, k4 i0]
        have hone : List.countP (isFailed i0)
            [(Event.batchFailed i0 retries : Event ρ)] = 1 := by
          simp [List.countP_cons, isFailed]
        rw [hone]
    | succ j =>
      have hsucc : f i0 0 b = some (g b) := Hs i0 b (by omega)
      have hatt : attemptLoop f i0 b 0 (retries + 1).toNat =
          ([Event.attemptStart i0 0], some (g b)) := by
        have h := attemptLoop_succeedsAt f i0 b (g b) 0 ((retries + 1).toNat) 0
          (by omega) (fun d hd => by omega) hsucc
        simpa [failTrace] using h
      have hstep := processBatches_cons_success f none retries b bs i0 results lastR _ _ hatt
      have h1 : (processBatches f none retries (b :: bs) i0 results lastR).1 =
          [Event.attemptStart i0 0] ++ saveEvs none (i0 + 1) (g b) ++
            (processBatches f none retries bs (i0 + 1) (results ++ [g b])
              (some (g b))).1 := by
        rw [hstep]
      have h2 : (processBatches f none retries (b :: bs) i0 results lastR).2 =
          (processBatches f none retries bs (i0 + 1) (results ++ [g b])
            (some (g b))).2 := by
        rw [hstep]
      have hidx : i0 + (j + 1) = i0 + 1 + j := by omega
      obtain ⟨k1, k2, k3⟩ := ih j (i0 + 1) (results ++ [g b]) (some (g b))
        (by simp only [List.length_cons] at hk; omega)
        (fun a bb => by rw [← hidx]; exact Hfail a bb)
        (fun i bb hi => Hs i bb (by omega))
      refine ⟨?_, ?_, ?_⟩
      · rw [h2, k1, List.eraseIdx_cons_succ, List.map_cons]
        simp
      · rw [hidx, h1, List.countP_append, List.countP_append, k2,
          saveEvs_countP_zero _ none _ _ (fun nm c => rfl)]
        have hone : List.countP (isInvoke (i0 + 1 + j))
            [(Event.attemptStart i0 0 : Event ρ)] = 0 := by
          simp only [List.countP_cons, List.countP_nil, isInvoke]
          rw [if_neg (by simp only [beq_iff_eq]; omega)]
        rw [hone]
        omega
      · rw [hidx, h1, List.countP_append, List.countP_append, k3,
          saveEvs_countP_zero _ none _ _ (fun nm c => rfl)]
        have hone : List.countP (isFailed (i0 + 1 + j))
            [(Event.attemptStart i0 0 : Event ρ)] = 0 := by
          simp [List.countP_cons, isFailed]
        rw [hone]

/-- Run of the batch loop (no save path) with a negative configured retry
count: the attempt budget `range(retries + 1)` is empty, so the processing
function is never invoked, every batch is reported as permanently failed
exactly once, and the returned result list is unchanged. -/
theorem processBatches_negRetries {α ρ : Type} (f : Nat → Nat → List α → Option ρ)
    (retries : Int) (hR : retries < 0) :
    ∀ (bs : List (List α)) (i0 : Nat) (results : List ρ) (lastR : Option ρ),
      (processBatches f none retries bs i0 results lastR).2 = Except.ok results ∧
      (processBatches f none retries bs i0 results lastR).1.countP isInvokeAny = 0 ∧
      (∀ K, (processBatches f none retries bs i0 results lastR).1.countP (isFailed K) =
        if i0 ≤ K ∧ K < i0 + bs.length then 1 else 0) := by
  intro bs
  induction bs with
  | nil =>
    intro i0 results lastR
    refine ⟨by simp [processBatches],
      by simp [processBatches, List.countP_cons, isInvokeAny], ?_⟩
    intro K
    rw [if_neg (by simp only [List.length_nil]; omega)]
    simp [processBatches, List.countP_cons, isFailed]
  | cons b bs ih =>
    intro i0 results lastR
    have hbud : (retries + 1).toNat = 0 := by omega
    have hatt : attemptLoop f i0 b 0 (retries + 1).toNat = ([], none) := by
      rw [hbud]
      simp [attemptLoop]
    have hstep := processBatches_cons_failure_nosave f retries b bs i0 results lastR [] hatt
    have h1 : (processBatches f none retries (b :: bs) i0 results lastR).1 =
        [Event.batchFailed i0 retries] ++
          (processBatches f none retries bs (i0 + 1) results lastR).1 := by
      rw [hstep]
      simp
    have h2 : (processBatches f none retries (b :: bs) i0 results lastR).2 =
        (processBatches f none retries bs (i0 + 1) results lastR).2 := by
      rw [hstep]
    obtain ⟨k1, k2, k3⟩ := ih (i0 + 1) results lastR
    refine ⟨h2.trans k1, ?_, ?_⟩
    · rw [h1, List.countP_append, k2]
      have hone : List.countP isInvokeAny
          [(Event.batchFailed i0 retries : Event ρ)] = 0 := by
        simp [List.countP_cons, isInvokeAny]
      rw [hone]
    · intro K
      rw [h1, List.countP_append, k3 K]
      have hone : List.countP (isFailed K)
          [(Event.batchFailed i0 retries : Event ρ)] = if i0 = K then 1 else 0 := by
        by_cases h : i0 = K <;> simp [List.countP_cons, isFailed, h]
      rw [hone]
      simp only [List.length_cons]
      split_ifs <;> omega

/-- Scanning a concatenation: the right part is scanned after the left,
with the index advanced and the left scan's best index carried over. -/
theorem rfindAux_append (c : Char) :
    ∀ (xs ys : List Char) (i : Nat) (best : Int),
      rfindAux c (xs ++ ys) i best =
        rfindAux c ys (i + xs.length) (rfindAux c xs i best) := by
  intro xs
  induction xs with
  | nil =>
    intro ys i best
    simp [rfindAux]
  | cons x t ih =>
    intro ys i best
    have step : rfindAux c ((x :: t) ++ ys) i best =
        rfindAux c (t ++ ys) (i + 1) (if x = c then (i : Int) else best) := rfl
    have step2 : rfindAux c (x :: t) i best =
        rfindAux c t (i + 1) (if x = c then (i : Int) else best) := rfl
    rw [step, ih, step2]
    rw [show i + (x :: t).length = i + 1 + t.length from by
      simp only [List.length_cons]; omega]

/-- Scanning a list that does not contain the sought character leaves the
best index unchanged. -/
theorem rfindAux_not_mem (c : Char) :
    ∀ (xs : List Char) (i : Nat) (best : Int), c ∉ xs →
      rfindAux c xs i best = best := by
  intro xs
  induction xs with
  | nil => intro i best h; rfl
  | cons x t ih =>
    intro i best h
    simp only [List.mem_cons, not_or] at h
    have hne : x = c → False := fun hc => h.1 hc.symm
    simp only [rfindAux, if_neg hne]
    exact ih (i + 1) best h.2

/-- The scan's result stays below the end index of the scanned region. -/
theorem rfindAux_lt (c : Char) :
    ∀ (xs : List Char) (i : Nat) (best : Int), best < (i : Int) + xs.length →
      rfindAux c xs i best < (i : Int) + xs.length := by
  intro xs
  induction xs with
  | nil =>
    intro i best h
    simpa [rfindAux] using h
  | cons x t ih =>
    intro i best h
    simp only [List.length_cons] at h
    simp only [rfindAux, List.length_cons]
    have hb : (if x = c then (i : Int) else best) < ((i + 1 : Nat) : Int) + t.length := by
      split_ifs <;> push_cast <;> push_cast at h <;> omega
    have hres := ih (i + 1) (if x = c then (i : Int) else best) hb
    push_cast at hres ⊢
    omega

/-- `os.path.splitext` on a path of the form `name.ext`, where the extension
has no dot and no separator and the (separator-free) name contains some
non-dot character: the split is at the final dot. -/
theorem splitext_append (name ext : List Char)
    (h1 : '.' ∉ ext) (h2 : '/' ∉ ext) (h3 : '/' ∉ name)
    (h4 : ∃ c ∈ name, c ≠ '.') :
    splitext (name ++ '.' :: ext) = (name, '.' :: ext) := by
  have hdot : rfind (name ++ '.' :: ext) '.' = (name.length : Int) := by
    unfold rfind
    rw [rfindAux_append]
    simp only [rfindAux, if_pos rfl]
    rw [rfindAux_not_mem _ _ _ _ h1]
    push_cast
    omega
  have hsep : rfind (name ++ '.' :: ext) '/' = -1 := by
    unfold rfind
    apply rfindAux_not_mem
    intro hmem
    rcases List.mem_append.mp hmem with h | h
    · exact h3 h
    · rcases List.mem_cons.mp h with h | h
      · exact absurd h (by decide)
      · exact h2 h
  have hany : name.any (fun ch => ch != '.') = true := by
    obtain ⟨c, hc, hne⟩ := h4
    exact List.any_eq_true.mpr ⟨c, hc, by simpa using hne⟩
  unfold splitext
  rw [hdot, hsep]
  rw [if_pos (by omega : (-1 : Int) < (name.length : Int))]
  have e1 : ((-1 : Int) + 1).toNat = 0 := by decide
  have e2 : ((name.length : Int) - (-1) - 1).toNat = name.length := by omega
  have e3 : ((name.length : Int)).toNat = name.length := by omega
  rw [e1, e2, e3, List.drop_zero, List.take_left, if_pos hany, List.drop_left]

/-- C3: for every finite input of length `L` and batch size `S > 0`, the
batcher produces exactly `⌈L / S⌉ = (L + S - 1) / S` batches; the total
number of items across all batches is `L`; concatenating all batches in
order reproduces the input; every batch except possibly the last has
length `S`; and the last batch has length `L % S` when that is nonzero and
`S` otherwise. -/
theorem batcher_segmentation {α : Type} (l : List α) (s : Nat) (hs : 0 < s) :
    (get_batches l (s : Int)).length = (l.length + s - 1) / s ∧
    ((get_batches l (s : Int)).map List.length).sum = l.length ∧
    (get_batches l (s : Int)).flatten = l ∧
    (∀ b ∈ (get_batches l (s : Int)).dropLast, b.length = s) ∧
    (l ≠ [] → ∃ lastB, (get_batches l (s : Int)).getLast? = some lastB ∧
      lastB.length = if l.length % s ≠ 0 then l.length % s else s) := by
  refine ⟨get_batches_length_aux s hs l.length l (Nat.le_refl _), ?_,
    get_batches_flatten s hs l,
    get_batches_dropLast_aux s hs l.length l (Nat.le_refl _),
    fun h => get_batches_getLast_aux s hs l.length l (Nat.le_refl _) h⟩
  rw [← List.length_flatten, get_batches_flatten s hs l]

/-- Witness: the batching specification evaluated at a 7-element input with
batch size 3 — three batches, last one `[6]`. -/
theorem batcher_segmentation_witness :
    (get_batches [0, 1, 2, 3, 4, 5, 6] (3 : Int)).length = 3 ∧
    ((get_batches [0, 1, 2, 3, 4, 5, 6] (3 : Int)).map List.length).sum = 7 ∧
    (get_batches [0, 1, 2, 3, 4, 5, 6] (3 : Int)).flatten = [0, 1, 2, 3, 4, 5, 6] ∧
    (get_batches [0, 1, 2, 3, 4, 5, 6] (3 : Int)).getLast? = some [6] := by
  obtain ⟨h1, h2, h3, h4, h5⟩ := batcher_segmentation [0, 1, 2, 3, 4, 5, 6] 3 (by decide)
  exact ⟨h1.trans (by decide), h2.trans (by decide), h3, by decide⟩

/-- C4: if the processing function succeeds on every invocation, then (for a
positive batch size and non-negative configured retries, per the
configuration contract) the run returns exactly one entry per batch — the
processing function applied to that batch — in batch order. -/
theorem process_all_success {α ρ : Type} (p : BatchProcessor α ρ)
    (f : Nat → Nat → List α → Option ρ) (g : List α → ρ)
    (hs : 0 < p.batch_size) (hR : 0 ≤ p.retries)
    (Hf : ∀ i a b, f i a b = some (g b)) :
    (p.process f).2 = Except.ok ((get_batches p.iterable p.batch_size).map g) := by
  obtain ⟨k1, _, _, _⟩ := processBatches_eventual f p.save_to_file p.retries
    (fun _ => 0) (fun _ bb => g bb) (get_batches p.iterable p.batch_size) 0 [] none
    (fun K hk1 hk2 => by show (0 : Nat) < (p.retries + 1).toNat; omega)
    (fun K bb hk1 hk2 d hd => absurd (hd : d < 0) (Nat.not_lt_zero d))
    (fun K bb hk1 hk2 => Hf K 0 bb)
  show (processBatches f p.save_to_file p.retries
    (get_batches p.iterable p.batch_size) 0 [] none).2 = _
  rw [k1]
  apply congrArg
  rw [List.nil_append]
  exact (mapIdx_congr_fn _ (fun _ bb => g bb) _ (fun i x => rfl)).trans
    (mapIdx_const_fn g _)

/-- Witness: an always-successful run over `[1,2,3,4,5]` with batch size 2
returns the three per-batch sums in order. -/
theorem process_all_success_witness :
    ((BatchProcessor.mk [1, 2, 3, 4, 5] 2 false none 0 1 : BatchProcessor Nat Nat).process
      (fun _ _ b => some b.sum)).2 = Except.ok [3, 7, 5] := by
  have h := process_all_success (BatchProcessor.mk [1, 2, 3, 4, 5] 2 false none 0 1)
    (fun _ _ b => some b.sum) (fun b => b.sum) (by decide) (by decide)
    (fun i a b => rfl)
  exact h.trans (congrArg Except.ok (by decide))

/-- C6: if batch `k` fails on its first attempt and succeeds on its second,
every other batch succeeds on its first attempt, and the configured retry
count is `R ≥ 1`, then exactly one retry sleep elapses in the whole run,
the processing function is invoked exactly twice for batch `k`, and batch
`k`'s second-attempt result appears in the returned result sequence at
position `k`, with all other results in order. -/
theorem process_retry_then_success {α ρ : Type} (p : BatchProcessor α ρ)
    (f : Nat → Nat → List α → Option ρ) (g : List α → ρ) (rk : ρ) (k : Nat) (R : Nat)
    (hret : p.retries = (R : Int)) (hR : 1 ≤ R)
    (hk : k < (get_batches p.iterable p.batch_size).length)
    (Hk0 : ∀ b, f k 0 b = none)
    (Hk1 : ∀ b, f k 1 b = some rk)
    (Hs : ∀ i b, i ≠ k → f i 0 b = some (g b)) :
    (p.process f).2 = Except.ok ((get_batches p.iterable p.batch_size).mapIdx
        (fun j b => if j = k then rk else g b)) ∧
    (p.process f).1.countP (isInvoke k) = 2 ∧
    (p.process f).1.countP isSleepEv = 1 := by
  obtain ⟨k1, k2, k3, _⟩ := processBatches_eventual f p.save_to_file p.retries
    (fun K => if K = k then 1 else 0) (fun K bb => if K = k then rk else g bb)
    (get_batches p.iterable p.batch_size) 0 [] none
    (fun K hk1 hk2 => by
      show (if K = k then 1 else 0) < (p.retries + 1).toNat
      split_ifs <;> omega)
    (fun K bb hk1 hk2 d hd => by
      have hd2 : d < (if K = k then 1 else 0) := hd
      by_cases h : K = k
      · rw [if_pos h] at hd2
        have hd0 : d = 0 := by omega
        subst h hd0
        exact Hk0 bb
      · rw [if_neg h] at hd2
        exact absurd hd2 (Nat.not_lt_zero d))
    (fun K bb hk1 hk2 => by
      show f K (if K = k then 1 else 0) bb = some (if K = k then rk else g bb)
      by_cases h : K = k
      · rw [if_pos h, if_pos h]
        subst h
        exact Hk1 bb
      · rw [if_neg h, if_neg h]
        exact Hs K bb h)
  refine ⟨?_, ?_, ?_⟩
  · show (processBatches f p.save_to_file p.retries
      (get_batches p.iterable p.batch_size) 0 [] none).2 = _
    rw [k1]
    apply congrArg
    rw [List.nil_append]
    exact mapIdx_congr_fn _ _ _ (fun i x => by
      show (if 0 + i = k then rk else g x) = (if i = k then rk else g x)
      rw [Nat.zero_add])
  · show List.countP (isInvoke k) (processBatches f p.save_to_file p.retries
      (get_batches p.iterable p.batch_size) 0 [] none).1 = 2
    rw [k2 k, if_pos (⟨Nat.zero_le k, by omega⟩ :
      0 ≤ k ∧ k < 0 + (get_batches p.iterable p.batch_size).length)]
    rw [if_pos rfl]
  · show List.countP isSleepEv (processBatches f p.save_to_file p.retries
      (get_batches p.iterable p.batch_size) 0 [] none).1 = 1
    rw [k3]
    have hmap : List.map (fun j => (fun K => if K = k then (1 : Nat) else 0) (0 + j))
        (List.range (get_batches p.iterable p.batch_size).length) =
        List.map (fun j => if j = k then (1 : Nat) else 0)
          (List.range (get_batches p.iterable p.batch_size).length) :=
      List.map_congr_left (fun x hx => by
        show (if 0 + x = k then (1 : Nat) else 0) = (if x = k then (1 : Nat) else 0)
        rw [Nat.zero_add])
    rw [hmap]
    exact sum_range_indicator k _ (by omega)

/-- Witness: batch 1 of `[1,2,3]` (batch size 1, one retry, persistence
configured) fails once then succeeds with result `99`: one sleep, two
invocations of batch 1, final results `[1, 99, 3]`. -/
theorem process_retry_then_success_witness :
    (((BatchProcessor.mk [1, 2, 3] 1 true (some "out.json".data) 1 1 :
        BatchProcessor Nat Nat).process
      (fun i a b => if i = 1 then (if a = 0 then none else some 99)
        else some b.sum)).2 = Except.ok [1, 99, 3]) ∧
    (((BatchProcessor.mk [1, 2, 3] 1 true (some "out.json".data) 1 1 :
        BatchProcessor Nat Nat).process
      (fun i a b => if i = 1 then (if a = 0 then none else some 99)
        else some b.sum)).1.countP (isInvoke 1) = 2) ∧
    (((BatchProcessor.mk [1, 2, 3] 1 true (some "out.json".data) 1 1 :
        BatchProcessor Nat Nat).process
      (fun i a b => if i = 1 then (if a = 0 then none else some 99)
        else some b.sum)).1.countP isSleepEv = 1) := by
  have h := process_retry_then_success
    (BatchProcessor.mk [1, 2, 3] 1 true (some "out.json".data) 1 1)
    (fun i a b => if i = 1 then (if a = 0 then none else some 99) else some b.sum)
    (fun b => b.sum) 99 1 1 (by decide) (by decide) (by decide)
    (fun b => rfl) (fun b => rfl)
    (fun i b hi => by
      show (if i = 1 then (if (0 : Nat) = 0 then none else some 99)
        else some b.sum) = some b.sum
      rw [if_neg hi])
  exact ⟨h.1.trans (congrArg Except.ok (by decide)), h.2.1, h.2.2⟩

/-- C5 (amended: no persistence sink configured): if batch `k` fails on every
attempt while every other batch succeeds on its first attempt, with
configured retries `R ≥ 0`, then the processing function is invoked exactly
`R + 1` times for batch `k`, exactly one permanent-failure diagnostic is
emitted for batch `k`, batch `k` contributes no entry to the result
sequence, and the other batches' results appear in their original order. -/
theorem process_one_failing_batch {α ρ : Type} (p : BatchProcessor α ρ)
    (f : Nat → Nat → List α → Option ρ) (g : List α → ρ) (k : Nat) (R : Nat)
    (hs : 0 < p.batch_size)
    (hsave : p.save_to_file = none)
    (hret : p.retries = (R : Int))
    (hk : k < (get_batches p.iterable p.batch_size).length)
    (Hfail : ∀ a b, f k a b = none)
    (Hs : ∀ i b, i ≠ k → f i 0 b = some (g b)) :
    (p.process f).2 = Except.ok
        (((get_batches p.iterable p.batch_size).eraseIdx k).map g) ∧
    (p.process f).1.countP (isInvoke k) = R + 1 ∧
    (p.process f).1.countP (isFailed k) = 1 := by
  obtain ⟨h1, h2, h3⟩ := processBatches_oneFailing f p.retries g (by omega)
    (get_batches p.iterable p.batch_size) k 0 [] none hk
    (fun a b => by
      show f (0 + k) a b = none
      rw [Nat.zero_add]
      exact Hfail a b)
    (fun i b hi => Hs i b (by omega))
  rw [Nat.zero_add] at h2 h3
  have hbud : (p.retries + 1).toNat = R + 1 := by omega
  rw [hbud] at h2
  refine ⟨?_, ?_, ?_⟩
  · show (processBatches f p.save_to_file p.retries
      (get_batches p.iterable p.batch_size) 0 [] none).2 = _
    rw [hsave]
    exact h1.trans (by rw [List.nil_append])
  · show List.countP (isInvoke k) (processBatches f p.save_to_file p.retries
      (get_batches p.iterable p.batch_size) 0 [] none).1 = R + 1
    rw [hsave]
    exact h2
  · show List.countP (isFailed k) (processBatches f p.save_to_file p.retries
      (get_batches p.iterable p.batch_size) 0 [] none).1 = 1
    rw [hsave]
    exact h3

/-- Witness: over `[1,2,3]` with batch size 1 and retries 2, batch 1 failing
deterministically is invoked 3 times, reported failed once, and the results
of batches 0 and 2 are returned in order. -/
theorem process_one_failing_batch_witness :
    (((BatchProcessor.mk [1, 2, 3] 1 false none 2 1 : BatchProcessor Nat Nat).process
      (fun i a b => if i = 1 then none else some b.sum)).2 = Except.ok [1, 3]) ∧
    (((BatchProcessor.mk [1, 2, 3] 1 false none 2 1 : BatchProcessor Nat Nat).process
      (fun i a b => if i = 1 then none else some b.sum)).1.countP (isInvoke 1) = 3) ∧
    (((BatchProcessor.mk [1, 2, 3] 1 false none 2 1 : BatchProcessor Nat Nat).process
      (fun i a b => if i = 1 then none else some b.sum)).1.countP (isFailed 1) = 1) := by
  have h := process_one_failing_batch
    (BatchProcessor.mk [1, 2, 3] 1 false none 2 1)
    (fun i a b => if i = 1 then none else some b.sum) (fun b => b.sum) 1 2
    (by decide) rfl (by decide) (by decide)
    (fun a b => rfl)
    (fun i b hi => by
      show (if i = 1 then none else some b.sum) = some b.sum
      rw [if_neg hi])
  exact ⟨h.1.trans (congrArg Except.ok (by decide)), h.2.1.trans (by decide), h.2.2⟩

/-- C5 counterexample: with a persistence sink configured and batch 0 (of 2)
failing permanently with retries 0, the run aborts with `UnboundLocalError`
at the save step, so batch 1's result (`7`) never appears in any returned
result sequence — the claim's conclusion fails at this input. -/
theorem process_one_failing_batch_cex :
    (((BatchProcessor.mk [1, 2] 1 false (some "o.json".data) 0 1 :
        BatchProcessor Nat Nat).process
      (fun i _ _ => if i = 0 then none else some 7)).2 =
      Except.error RunError.unboundLocalResult) ∧
    (((BatchProcessor.mk [1, 2] 1 false (some "o.json".data) 0 1 :
        BatchProcessor Nat Nat).process
      (fun i _ _ => if i = 0 then none else some 7)).2 ≠ Except.ok [7]) := by
  have h1 : ((BatchProcessor.mk [1, 2] 1 false (some "o.json".data) 0 1 :
      BatchProcessor Nat Nat).process
      (fun i _ _ => if i = 0 then none else some 7)).2 =
      Except.error RunError.unboundLocalResult := rfl
  exact ⟨h1, fun hc => Except.noConfusion (h1.symm.trans hc)⟩

/-- C10 (amended: no persistence sink configured): with a negative configured
retries value, on any (in particular non-empty) input the processing
function is never invoked, every produced batch is reported as permanently
failed exactly once, and the returned result sequence is empty. -/
theorem process_negative_retries {α ρ : Type} (p : BatchProcessor α ρ)
    (f : Nat → Nat → List α → Option ρ)
    (hsave : p.save_to_file = none) (hR : p.retries < 0)
    (hl : p.iterable ≠ []) :
    (p.process f).2 = Except.ok [] ∧
    (p.process f).1.countP isInvokeAny = 0 ∧
    (∀ K, K < (get_batches p.iterable p.batch_size).length →
      (p.process f).1.countP (isFailed K) = 1) := by
  obtain ⟨k1, k2, k3⟩ := processBatches_negRetries f p.retries hR
    (get_batches p.iterable p.batch_size) 0 [] none
  refine ⟨?_, ?_, ?_⟩
  · show (processBatches f p.save_to_file p.retries
      (get_batches p.iterable p.batch_size) 0 [] none).2 = Except.ok []
    rw [hsave]
    exact k1
  · show List.countP isInvokeAny (processBatches f p.save_to_file p.retries
      (get_batches p.iterable p.batch_size) 0 [] none).1 = 0
    rw [hsave]
    exact k2
  · intro K hK
    show List.countP (isFailed K) (processBatches f p.save_to_file p.retries
      (get_batches p.iterable p.batch_size) 0 [] none).1 = 1
    rw [hsave, k3 K, if_pos (⟨Nat.zero_le K, by omega⟩ :
      0 ≤ K ∧ K < 0 + (get_batches p.iterable p.batch_size).length)]

/-- Witness: retries `-1` over `[5,6]` with batch size 2 and no sink — no
invocation, empty results, the single batch reported failed. -/
theorem process_negative_retries_witness :
    (((BatchProcessor.mk [5, 6] 2 false none (-1) 1 : BatchProcessor Nat Nat).process
      (fun _ _ _ => some 0)).2 = Except.ok []) ∧
    (((BatchProcessor.mk [5, 6] 2 false none (-1) 1 : BatchProcessor Nat Nat).process
      (fun _ _ _ => some 0)).1.countP isInvokeAny = 0) ∧
    (((BatchProcessor.mk [5, 6] 2 false none (-1) 1 : BatchProcessor Nat Nat).process
      (fun _ _ _ => some 0)).1.countP (isFailed 0) = 1) := by
  have h := process_negative_retries
    (BatchProcessor.mk [5, 6] 2 false none (-1) 1)
    (fun _ _ _ => some 0) rfl (by decide) (by decide)
  exact ⟨h.1, h.2.1, h.2.2 0 (by decide)⟩

/-- C10 counterexample: with a persistence sink configured, negative retries
on a non-empty input abort the run with `UnboundLocalError` instead of
returning an empty result sequence. -/
theorem process_negative_retries_cex :
    (((BatchProcessor.mk [1] 1 false (some "o.json".data) (-1) 1 :
        BatchProcessor Nat Nat).process (fun _ _ _ => some 0)).2 =
      Except.error RunError.unboundLocalResult) ∧
    (((BatchProcessor.mk [1] 1 false (some "o.json".data) (-1) 1 :
        BatchProcessor Nat Nat).process (fun _ _ _ => some 0)).2 ≠
      Except.ok []) := by
  have h1 : ((BatchProcessor.mk [1] 1 false (some "o.json".data) (-1) 1 :
      BatchProcessor Nat Nat).process (fun _ _ _ => some 0)).2 =
      Except.error RunError.unboundLocalResult := rfl
  exact ⟨h1, fun hc => Except.noConfusion (h1.symm.trans hc)⟩

/-- C1 (code evaluation at the failing input): input `[10, 20]`, batch size
1, retries 0, sink `o.json`, with batch 0 succeeding (result 42) and batch 1
always failing.  Batch 1 is reported as permanently failed, yet the run
still writes an artifact `o_batch2.json` — carrying the stale result 42 of
the previous batch — and returns normally.  This contradicts the claim that
a batch whose retries are exhausted produces no persisted artifact. -/
theorem failed_batch_still_persists :
    (((BatchProcessor.mk [10, 20] 1 false (some "o.json".data) 0 1 :
        BatchProcessor Nat Nat).process
      (fun i _ _ => if i = 0 then some 42 else none)).1.countP (isFailed 1) = 1) ∧
    (Event.fileWrite "o_batch2.json".data 42 ∈
      ((BatchProcessor.mk [10, 20] 1 false (some "o.json".data) 0 1 :
        BatchProcessor Nat Nat).process
        (fun i _ _ => if i = 0 then some 42 else none)).1) ∧
    (((BatchProcessor.mk [10, 20] 1 false (some "o.json".data) 0 1 :
        BatchProcessor Nat Nat).process
      (fun i _ _ => if i = 0 then some 42 else none)).2 = Except.ok [42]) := by
  exact ⟨by decide, by decide, rfl⟩

/-- C2 (code evaluation at the failing input): input `[10, 20]`, batch size
1, retries 0, sink `o.json`, processing always failing.  After batch 0's
retries are exhausted the save step reads the unbound local `result` and
the run raises `UnboundLocalError`: batch 1 is never attempted.  This
contradicts the claim that a permanent batch failure never raises and the
run continues with the remaining batches. -/
theorem permanent_failure_raises_and_halts :
    (((BatchProcessor.mk [10, 20] 1 false (some "o.json".data) 0 1 :
        BatchProcessor Nat Nat).process (fun _ _ _ => none)).2 =
      Except.error RunError.unboundLocalResult) ∧
    (((BatchProcessor.mk [10, 20] 1 false (some "o.json".data) 0 1 :
        BatchProcessor Nat Nat).process (fun _ _ _ => none)).1.countP
      (isInvoke 1) = 0) := by
  exact ⟨rfl, by decide⟩

/-- C7 (code evaluation at the failing input): with a non-positive batch
size the system does not fail fast: the batcher yields the entire non-empty
input as one oversized batch and the processing function is invoked on it,
contradicting the claim that no batches are produced and the processing
function is never invoked. -/
theorem nonpositive_batch_size_not_rejected :
    get_batches [1] (0 : Int) = [[1]] ∧
    get_batches [1, 2] (-3 : Int) = [[1, 2]] ∧
    (((BatchProcessor.mk [1] 0 false none 0 1 : BatchProcessor Nat Nat).process
      (fun _ _ _ => some 0)).1.countP isInvokeAny = 1) := by
  refine ⟨?_, ?_, ?_⟩ <;> decide

/-- C8: for a configured base path of the form `name.ext` — extension
without dot or separator, separator-free stem containing some non-dot
character — and 1-based batch number `n`, the artifact write performed by
`_save_to_file` goes to the destination `name_batch{n}.ext`, derived
deterministically from the base path and the batch number, and carries the
result value being serialized (the JSON text itself is `json.dump(result,
f, indent=4)` in the source). -/
theorem batch_artifact_naming {ρ : Type} (name ext : List Char) (r : ρ) (n : Nat)
    (h1 : '.' ∉ ext) (h2 : '/' ∉ ext) (h3 : '/' ∉ name)
    (h4 : ∃ c ∈ name, c ≠ '.') :
    save_to_file_event (name ++ '.' :: ext) n r =
      Event.fileWrite (name ++ "_batch".data ++ (Nat.repr n).data ++ '.' :: ext) r := by
  unfold save_to_file_event batchFileName
  rw [splitext_append name ext h1 h2 h3 h4]

/-- Witness: the artifact for batch 3 under base path `output.json` is
written to `output_batch3.json`. -/
theorem batch_artifact_naming_witness :
    save_to_file_event "output.json".data 3 (42 : Nat) =
      Event.fileWrite "output_batch3.json".data 42 := by
  have e : ("output.json".data : List Char) = "output".data ++ '.' :: "json".data := by
    decide
  rw [e, batch_artifact_naming "output".data "json".data (42 : Nat) 3 (by decide)
    (by decide) (by decide) (by decide)]
  decide

/-- C9: the two invocation styles coincide — applying the wrapper produced
by the `batch_process` decorator to an iterable is the very same computation
as constructing a `BatchProcessor` with that configuration and calling
`process` with the same function: identical trace and identical results. -/
theorem decorator_equivalence {α ρ : Type} (batch_size : Int) (progress : Bool)
    (save : Option (List Char)) (retries : Int) (retry_delay : Rat)
    (func : Nat → Nat → List α → Option ρ) (iterable : List α) :
    batch_process batch_size progress save retries retry_delay func iterable =
      (BatchProcessor.mk iterable batch_size progress save retries
        retry_delay).process func := rfl

end BatchProc
